import Mathlib

/-!  Verification development for the fixed-point currency value type of
`src/lesson-1/index.ts` (a currency.js-style class).

JavaScript numbers are modelled as exact rationals.  The non-finite values
(NaN, +Infinity, -Infinity) arise in this program only as propagating
"poison" values (e.g. reading the undefined `Currency.prototype.value`, or
dividing by zero) and no claim distinguishes between them, so they are
collapsed into a single absent value `none`.  Machine-float rounding error
is idealised away: the program's own `toFixed(4)` step exists precisely to
cancel it, so on the exact-rational model that step is the identity on the
values the claims exercise.  -/

/-- JavaScript number: `some q` is the finite value `q` (idealised as an
exact rational); `none` stands for the non-finite results (NaN, Infinity),
which the modelled operations propagate. -/
abbrev JSNum := Option ℚ

/-- NaN (collapsed with the infinities, see the module comment). -/
def jsNaN : JSNum := none

def jsAdd : JSNum → JSNum → JSNum
  | some a, some b => some (a + b)
  | _, _ => none

def jsSub : JSNum → JSNum → JSNum
  | some a, some b => some (a - b)
  | _, _ => none

def jsMul : JSNum → JSNum → JSNum
  | some a, some b => some (a * b)
  | _, _ => none

/-- JavaScript division; a zero divisor yields Infinity or NaN, both
collapsed to `none`. -/
def jsDiv : JSNum → JSNum → JSNum
  | some a, some b => if b = 0 then none else some (a / b)
  | _, _ => none

def jsNeg : JSNum → JSNum
  | some a => some (-a)
  | none => none

/-- Computable floor of a rational (kernel-reducible, unlike the floor of
Mathlib's `FloorRing` instance); proved equal to `Int.floor` below. -/
def qfloor (q : ℚ) : ℤ := q.num / q.den

/-- Computable ceiling of a rational; proved equal to `Int.ceil` below. -/
def qceil (q : ℚ) : ℤ := -qfloor (-q)

/-- JavaScript truthiness of a number: `0`, `-0` and `NaN` are falsy. -/
def jsTruthy : JSNum → Bool
  | some q => decide (q ≠ 0)
  | none => false

/-- The test `v >= 0`; false on NaN (the Infinity case is never exercised
by the claims). -/
def jge0 : JSNum → Bool
  | some q => decide (0 ≤ q)
  | none => false

/-- The test `v > 0`; false on NaN. -/
def jgt0 : JSNum → Bool
  | some q => decide (0 < q)
  | none => false

/-- `Math.floor`. -/
def jsFloor : JSNum → JSNum
  | some q => some ((qfloor q : ℤ) : ℚ)
  | none => none

/-- `Math.ceil`. -/
def jsCeil : JSNum → JSNum
  | some q => some ((qceil q : ℤ) : ℚ)
  | none => none

/-- `Math.abs`. -/
def jsAbs : JSNum → JSNum
  | some q => some |q|
  | none => none

/-- The source's `round = v => Math.round(v)`: round half toward positive
infinity. -/
def jsRound : JSNum → JSNum
  | some q => some ((qfloor (q + 1/2) : ℤ) : ℚ)
  | none => none

/-- The numeric value of `q.toFixed(d)`: round to `d` fractional digits,
ties away from zero (ECMA-262 `toFixed` rounds ties to the larger
magnitude after splitting off the sign). -/
def ratToFixed (q : ℚ) (d : ℕ) : ℚ :=
  (if q < 0 then -1 else 1) * ((qfloor (|q| * 10 ^ d + 1/2) : ℤ) : ℚ) / 10 ^ d

/-- The parser's `v = +v.toFixed(4)` step; `NaN.toFixed(4)` is `"NaN"`
whose numeric coercion is NaN again. -/
def jsToFixed4 : JSNum → JSNum
  | some q => some (ratToFixed q 4)
  | none => none

/-- Truncation toward zero (the integer conversion used by `~~` and `%`). -/
def ratTrunc (q : ℚ) : ℤ :=
  if 0 ≤ q then qfloor q else qceil q

/-- ECMA-262 ToInt32, the semantics of `~~v`: truncate toward zero, then
wrap into the signed 32-bit range; NaN (and Infinity) become 0. -/
def toInt32 : JSNum → ℚ
  | none => 0
  | some q =>
      let m : ℤ := ratTrunc q % 4294967296
      ((if 2147483648 ≤ m then m - 4294967296 else m : ℤ) : ℚ)

/-- JavaScript `%`: remainder with the sign of the dividend
(`a - b * trunc(a / b)`); a zero divisor gives NaN. -/
def jsMod : JSNum → JSNum → JSNum
  | some a, some b => if b = 0 then none else some (a - b * (ratTrunc (a / b) : ℚ))
  | _, _ => none

/-- The digit-grouping regex selected into `settings.groups`:
`groupRegex` (Western groups of three) or `vedicRegex` (Indian grouping). -/
inductive GroupsRegex where
  | western : GroupsRegex
  | vedic : GroupsRegex
deriving DecidableEq

/-- The shape of the module-level `defaults` table (`defObj`).  The
`decimal` separator is modelled as a single character: the source stores a
one-character string and splices it into one-character regex classes. -/
structure DefObj where
  symbol : String
  separator : String
  decimal : Char
  formatWithSymbol : Bool
  errorOnInvalid : Bool
  precision : ℕ
  pattern : String
  negativePattern : String
deriving DecidableEq

/-- The module-level `defaults` table. -/
def defaults : DefObj :=
  { symbol := "$"
    separator := ","
    decimal := '.'
    formatWithSymbol := false
    errorOnInvalid := false
    precision := 2
    pattern := "!#"
    negativePattern := "-!#" }

/-- Caller-supplied option object: every field optional (`none` models an
absent property, which `Object.assign` leaves at its default).  At runtime
the constructor merges whatever properties are present, so all settings
fields appear here (internal calls pass a full `_settings` object). -/
structure Opts where
  symbol : Option String := none
  separator : Option String := none
  decimal : Option Char := none
  formatWithSymbol : Option Bool := none
  errorOnInvalid : Option Bool := none
  precision : Option ℕ := none
  pattern : Option String := none
  negativePattern : Option String := none
  increment : Option JSNum := none
  useVedic : Option Bool := none
  groups : Option GroupsRegex := none
deriving DecidableEq

/-- The merged settings object (`_settings`) after the constructor has run:
`Object.assign({}, defaults, opts)` followed by the `increment` fallback
and the `groups` selection. -/
structure Settings where
  symbol : String
  separator : String
  decimal : Char
  formatWithSymbol : Bool
  errorOnInvalid : Bool
  precision : ℕ
  pattern : String
  negativePattern : String
  increment : JSNum
  useVedic : Bool
  groups : GroupsRegex
deriving DecidableEq

/-- The constructor's settings computation: merge `opts` over `defaults`,
default `settings.increment` to `1 / precisionFactor` when it is falsy
(absent, 0 or NaN — all falsy, collapsed here), and select the grouping
regex from `settings.useVedic` (absent, i.e. undefined, is falsy). -/
def buildSettings (opts : Opts) : Settings :=
  let precision := opts.precision.getD defaults.precision
  let increment0 : JSNum := (opts.increment.getD jsNaN)
  { symbol := opts.symbol.getD defaults.symbol
    separator := opts.separator.getD defaults.separator
    decimal := opts.decimal.getD defaults.decimal
    formatWithSymbol := opts.formatWithSymbol.getD defaults.formatWithSymbol
    errorOnInvalid := opts.errorOnInvalid.getD defaults.errorOnInvalid
    precision := precision
    pattern := opts.pattern.getD defaults.pattern
    negativePattern := opts.negativePattern.getD defaults.negativePattern
    increment := if jsTruthy increment0 then increment0 else some (1 / 10 ^ precision)
    useVedic := opts.useVedic.getD false
    groups := if opts.useVedic.getD false then .vedic else .western }

/-- View a full settings object as the option object obtained when it is
passed back into the constructor (every property present). -/
def Settings.toOpts (s : Settings) : Opts :=
  { symbol := some s.symbol
    separator := some s.separator
    decimal := some s.decimal
    formatWithSymbol := some s.formatWithSymbol
    errorOnInvalid := some s.errorOnInvalid
    precision := some s.precision
    pattern := some s.pattern
    negativePattern := some s.negativePattern
    increment := some s.increment
    useVedic := some s.useVedic
    groups := some s.groups }

/-- Settings as the constructor always leaves them: a truthy `increment`
and a `groups` regex that matches `useVedic`. -/
def Settings.Normal (s : Settings) : Prop :=
  jsTruthy s.increment = true ∧ s.groups = (if s.useVedic then GroupsRegex.vedic else GroupsRegex.western)

instance (s : Settings) : Decidable s.Normal := by
  unfold Settings.Normal; infer_instance

/-- A constructed `Currency` instance: the fields set by the constructor.
`value` is `intValue / precisionFactor` (a number once construction
finishes), `_settings` and `_precision` are the internal fields. -/
structure Currency where
  intValue : JSNum
  value : JSNum
  settings : Settings
  precisionF : ℚ
deriving DecidableEq

/-- A runtime JavaScript value reaching the constructor or `parse`:
a number, a string, a `Currency` instance, or anything else
(`undefined`, `null`, booleans, plain objects — all behave alike in
`parse`'s final `else`). -/
inductive JSVal where
  | num (n : JSNum) : JSVal
  | str (s : String) : JSVal
  | inst (c : Currency) : JSVal
  | other : JSVal
deriving DecidableEq

/-- The value of `+Currency.prototype.value`: the class field declaration
`value: number | string` emits no prototype property, so the read yields
`undefined` and the numeric coercion in `parse` turns it into NaN. -/
def currencyProtoValue : JSNum := jsNaN

/-- Index of the first occurrence of a character. -/
def firstIdxOf (c : Char) : List Char → Option ℕ
  | [] => none
  | x :: xs => if x = c then some 0 else (firstIdxOf c xs).map (· + 1)

/-- Index of the last occurrence of a character. -/
def lastIdxOf (c : Char) : List Char → Option ℕ
  | [] => none
  | x :: xs =>
      match lastIdxOf c xs with
      | some j => some (j + 1)
      | none => if x = c then some 0 else none

/-- The `replace(/\((.*)\)/, '-$1')` step: rewrite the first greedy
parenthesised group — from the first `(` to the last following `)` — to
`-` plus its contents (assumes the input has no line terminators, which
`.` would not cross). -/
def parenNeg (cs : List Char) : List Char :=
  match firstIdxOf '(' cs with
  | none => cs
  | some i =>
      let rest := cs.drop (i + 1)
      match lastIdxOf ')' rest with
      | none => cs
      | some j => cs.take i ++ '-' :: rest.take j ++ rest.drop (j + 1)

/-- Character class of `new RegExp('[^-\\d' + decimal + ']', 'g')`: the
characters that survive the strip are `-`, the digits, and the configured
decimal character. -/
def keepChar (dec : Char) (c : Char) : Bool :=
  c = '-' || c.isDigit || c = dec

/-- The `replace(decimalString, '.')` step: every occurrence of the
configured decimal character becomes `.`. -/
def replaceDecimal (dec : Char) (cs : List Char) : List Char :=
  cs.map fun c => if c = dec then '.' else c

/-- Decimal value of a digit string (the usual left fold). -/
def digitsVal (cs : List Char) : ℕ :=
  cs.foldl (fun a c => 10 * a + (c.toNat - 48)) 0

/-- ToNumber on an unsigned numeric literal made of digits and dots:
`Digits`, `Digits . Digits?`, or `. Digits`; anything else is NaN.  This
is only ever applied to strings over `-`, digits and `.` (the stripped
alphabet), on which it agrees with ECMA-262 ToNumber. -/
def strToUnsigned (cs : List Char) : JSNum :=
  let ip := cs.takeWhile Char.isDigit
  let rest := cs.dropWhile Char.isDigit
  match rest with
  | [] => if ip.isEmpty then none else some (digitsVal ip)
  | '.' :: fp =>
      if fp.all Char.isDigit && (!ip.isEmpty || !fp.isEmpty) then
        some ((digitsVal ip : ℚ) + (digitsVal fp : ℚ) / 10 ^ fp.length)
      else none
  | _ => none

/-- ToNumber (unary `+`) on the stripped string: the empty string is 0, a
leading sign applies to the rest. -/
def strToNum (cs : List Char) : JSNum :=
  if cs.isEmpty then some 0
  else if cs.head? = some '-' then jsNeg (strToUnsigned cs.tail)
  else if cs.head? = some '+' then strToUnsigned cs.tail
  else strToUnsigned cs

/-- Render `q.toFixed(d)`: sign split off, magnitude rounded half-up to
`d` fractional digits, zero-padded, decimal point inserted when `d > 0`. -/
def toFixedStr (q : ℚ) (d : ℕ) : String :=
  let n : ℕ := (qfloor (|q| * 10 ^ d + 1/2)).toNat
  let ds := (Nat.repr n).toList
  let ds := if ds.length < d + 1 then List.replicate (d + 1 - ds.length) '0' ++ ds else ds
  let body := if d = 0 then ds else ds.take (ds.length - d) ++ '.' :: ds.drop (ds.length - d)
  String.mk ((if q < 0 then ['-'] else []) ++ body)

/-- Render `v.toFixed(d)` for a number, `"NaN"` on the collapsed
non-finite value. -/
def jsToFixedStr (v : JSNum) (d : ℕ) : String :=
  match v with
  | none => "NaN"
  | some q => toFixedStr q d

/-- The free function `parse(value, opts, useRounding = true)`.  Errors
are modelled with `Except`: the thrown `Error('Invalid Input')` is the
`.error` case. -/
def parse (value : JSVal) (opts : Settings) (useRounding : Bool := true) :
    Except String JSNum :=
  let precision : ℚ := 10 ^ opts.precision
  let v : Except String JSNum :=
    match value with
    | .num n => .ok (jsMul n (some precision))
    | .inst _ => .ok (jsMul currencyProtoValue (some precision))
    | .str s =>
        let cleaned :=
          replaceDecimal opts.decimal (((parenNeg s.toList).filter (keepChar opts.decimal)))
        let v0 := jsMul (strToNum cleaned) (some precision)
        .ok (if jsTruthy v0 then v0 else some 0)
    | .other =>
        if opts.errorOnInvalid then .error "Invalid Input" else .ok (some 0)
  v.map fun w =>
    let w := jsToFixed4 w
    if useRounding then jsRound w else w

/-- The `Currency` constructor.  When the input is a `Currency` instance
the guarded assignment `this.value = value` is skipped, so `parse`
receives the still-undefined field (modelled by `.other`). -/
def mkCurrency (value : JSVal) (opts : Opts) : Except String Currency :=
  let thisValue : JSVal :=
    match value with
    | .inst _ => .other
    | v => v
  let settings := buildSettings opts
  let precision : ℚ := 10 ^ settings.precision
  (parse thisValue settings).map fun v =>
    { intValue := v
      value := jsDiv v (some precision)
      settings := settings
      precisionF := precision }

/-- Method `add`: parse the operand with this instance's settings, add the
int values, and construct a new instance from the rescaled sum. -/
def Currency.add (c : Currency) (number : JSVal) : Except String Currency := do
  let p ← parse number c.settings
  mkCurrency (.num (jsDiv (jsAdd c.intValue p) (some c.precisionF))) c.settings.toOpts

/-- Method `subtract`. -/
def Currency.subtract (c : Currency) (number : JSVal) : Except String Currency := do
  let p ← parse number c.settings
  mkCurrency (.num (jsDiv (jsSub c.intValue p) (some c.precisionF))) c.settings.toOpts

/-- Method `multiply`: the operand is used raw (not parsed), and the
divisor is the recomputed `pow(_settings.precision)`. -/
def Currency.multiply (c : Currency) (number : JSNum) : Except String Currency :=
  mkCurrency (.num (jsDiv (jsMul c.intValue number) (some ((10 : ℚ) ^ c.settings.precision))))
    c.settings.toOpts

/-- Method `divide`: the divisor is parsed with `useRounding = false`. -/
def Currency.divide (c : Currency) (number : JSVal) : Except String Currency := do
  let p ← parse number c.settings false
  mkCurrency (.num (jsDiv c.intValue p)) c.settings.toOpts

/-- Body of the `distribute` loop: `count` iterations, building one share
per iteration and spending one leftover penny (`pennies-- > 0`) on each of
the leading shares. -/
def distributeLoop (c : Currency) (split : JSNum) : ℕ → JSNum → Except String (List Currency)
  | 0, _ => .ok []
  | Nat.succ k, pennies => do
      let item ← mkCurrency (.num (jsDiv split (some c.precisionF))) c.settings.toOpts
      let item ←
        if jgt0 pennies then
          (if jge0 c.intValue then item.add (.num (jsDiv (some 1) (some c.precisionF)))
           else item.subtract (.num (jsDiv (some 1) (some c.precisionF))))
        else pure item
      let rest ← distributeLoop c split k (jsSub pennies (some 1))
      pure (item :: rest)

/-- Method `distribute(count)`.  The count is modelled as a natural
number: the source loop `for (; count !== 0; count--)` runs exactly
`count` times for a nonnegative integer count (and diverges otherwise,
which the claims exclude). -/
def Currency.distribute (c : Currency) (count : ℕ) : Except String (List Currency) :=
  let split := (if jge0 c.intValue then jsFloor else jsCeil) (jsDiv c.intValue (some (count : ℚ)))
  let pennies := jsAbs (jsSub c.intValue (jsMul split (some (count : ℚ))))
  distributeLoop c split count pennies

/-- Method `dollars()`: `~~this.value` (the `console.log` call only writes
to the console and touches no instance state). -/
def Currency.dollars (c : Currency) : ℚ :=
  toInt32 c.value

/-- Method `cents()`: `~~(intValue % _precision)`. -/
def Currency.cents (c : Currency) : ℚ :=
  toInt32 (jsMod c.intValue (some c.precisionF))

/-- Method `toString()`: round `intValue / _precision` to the configured
increment, then render with `precision` fractional digits. -/
def Currency.toString (c : Currency) : String :=
  jsToFixedStr (jsMul (jsRound (jsDiv (jsDiv c.intValue (some c.precisionF)) c.settings.increment))
      c.settings.increment)
    c.settings.precision

/-- Method `toJSON()`: the floating-point `value`. -/
def Currency.toJSON (c : Currency) : JSNum :=
  c.value

/-- The grouping replace `dollars.replace(groups, '$1' + separator)`: a
separator is inserted after a digit whose remaining suffix is all digits
of grouping length (the dollar strings produced by `toString` are either
all digits or `NaN`, on which this agrees with the regexes). -/
def groupDigits (g : GroupsRegex) (sep : List Char) : List Char → List Char
  | [] => []
  | x :: rest =>
      let r := rest.length
      let hit := x.isDigit && rest.all Char.isDigit &&
        (match g with
         | .western => decide (0 < r) && decide (r % 3 = 0)
         | .vedic => decide (3 ≤ r) && decide (r % 2 = 1))
      (if hit then x :: sep else [x]) ++ groupDigits g sep rest

/-- `String.prototype.replace` with a one-character search string and a
literal replacement (the replacements used by `format`). -/
def replaceFirstChar (needle : Char) (repl : List Char) : List Char → List Char
  | [] => []
  | x :: rest => if x = needle then repl ++ rest else x :: replaceFirstChar needle repl rest

/-- Method `format(useSymbol)`:  `this + ''` coerces through `toString`
(no `valueOf` is defined), the leading `-` is stripped, the string is
split at the decimal point, the sign picks the pattern, and `!`/`#` are
replaced by the symbol and the grouped number.  An undefined `useSymbol`
argument (`none`) falls back to `formatWithSymbol`. -/
def Currency.format (c : Currency) (useSymbol : Option Bool) : String :=
  let st := c.settings
  let s := (Currency.toString c).toList
  let stripped := match s with
    | '-' :: rest => rest
    | l => l
  let dollars := stripped.takeWhile (· ≠ '.')
  let rest := stripped.dropWhile (· ≠ '.')
  let cents : List Char :=
    match rest with
    | '.' :: r => r.takeWhile (· ≠ '.')
    | _ => []
  let useSym := useSymbol.getD st.formatWithSymbol
  let pat := (if jge0 c.value then st.pattern else st.negativePattern).toList
  let num := groupDigits st.groups st.separator.toList dollars ++
    (if cents.isEmpty then [] else st.decimal :: cents)
  String.mk
    (replaceFirstChar '#' num (replaceFirstChar '!' (if useSym then st.symbol.toList else []) pat))

/-- Sum of a list of JavaScript numbers (non-finite values propagate). -/
def jsum (l : List JSNum) : JSNum :=
  l.foldr jsAdd (some 0)

/-- The share record produced by the distribute loop for a per-share
amount of `z` minor units under settings `st`. -/
def mkShare (st : Settings) (z : ℤ) : Currency :=
  { intValue := some (z : ℚ)
    value := some ((z : ℚ) / 10 ^ st.precision)
    settings := buildSettings st.toOpts
    precisionF := 10 ^ st.precision }

/-- The per-share base amount of `distribute`: `floor(intValue / count)`
for a nonnegative total, `ceil` for a negative one. -/
def splitOf (A : ℤ) (count : ℕ) : ℤ :=
  if 0 ≤ A then ⌊(A : ℚ) / count⌋ else ⌈(A : ℚ) / count⌉

/-- The leftover minor units of `distribute`: `|intValue - split * count|`. -/
def penniesOf (A : ℤ) (count : ℕ) : ℕ :=
  (A - splitOf A count * count).natAbs

/-- A concrete constructed instance (1.27 at the default settings), used
by the witness theorems. -/
def sampleCurrency : Currency :=
  (mkCurrency (.num (some (127 / 100))) {}).toOption.getD
    { intValue := none, value := none, settings := buildSettings {}, precisionF := 100 }

deriving instance DecidableEq for Except

attribute [local semireducible] Rat.add Rat.sub Rat.mul Rat.inv Rat.ofScientific

/-- Characters of a digit list. -/
def digitChars (ds : List (Fin 10)) : List Char := ds.map fun d => Nat.digitChar d.val

/-- Numeric value of a digit list (most significant first). -/
def digitsNum (ds : List (Fin 10)) : ℕ := ds.foldl (fun a d => 10 * a + d.val) 0

/-- A valid decimal string: optional minus sign, integer digits `ds`, and
optionally a decimal point followed by fractional digits `fs`. -/
def decimalStringOf (neg : Bool) (ds fs : List (Fin 10)) (withDot : Bool) : String :=
  String.mk ((if neg then ['-'] else []) ++ digitChars ds ++
    (if withDot then '.' :: digitChars fs else []))

/-- The rational amount a valid decimal string denotes. -/
def ratOfParts (neg : Bool) (ds fs : List (Fin 10)) : ℚ :=
  (if neg then -1 else 1) * ((digitsNum ds : ℚ) + (digitsNum fs : ℚ) / 10 ^ fs.length)

/-- Modelled from the spec: the "normalized fixed-decimal rendering" of a
valid decimal string at the default precision 2 — the amount the string
denotes, rendered with exactly two fractional digits. -/
def normalizedRendering (neg : Bool) (ds fs : List (Fin 10)) : String :=
  toFixedStr (ratOfParts neg ds fs) 2

/-- The integer minor-unit amount a valid decimal string produces at
precision 2. -/
def intAmountOf (neg : Bool) (ds fs : List (Fin 10)) : ℤ :=
  (if neg then -1 else 1) * (digitsNum ds * 100 + digitsNum fs * 10 ^ (2 - fs.length))

/-! ### Concrete instances for witnesses and counterexamples -/

/-- A second constructed instance (2 dollars), with a different amount
than `sampleCurrency`. -/
def sampleTwoCurrency : Currency :=
  (mkCurrency (.num (some 2)) {}).toOption.getD
    { intValue := none, value := none, settings := buildSettings {}, precisionF := 100 }

/-- A constructed instance holding -1.5. -/
def sampleNegCurrency : Currency :=
  (mkCurrency (.num (some (-3 / 2))) {}).toOption.getD
    { intValue := none, value := none, settings := buildSettings {}, precisionF := 100 }

/-- A constructed instance holding 2^31 dollars. -/
def bigCurrency : Currency :=
  (mkCurrency (.num (some 2147483648)) {}).toOption.getD
    { intValue := none, value := none, settings := buildSettings {}, precisionF := 100 }

/-- The result of `sampleCurrency.add(1)`. -/
def sampleAddResult : Currency :=
  (sampleCurrency.add (.num (some 1))).toOption.getD sampleCurrency

/-! ### Receiver framing: the methods never write to `this` -/

/-- State-threading view of `add`: the pair is (result, receiver after the
call).  The method body reads `this` only through the destructuring
`let { intValue, _settings, _precision } = this` — the `+=` mutates that
local copy — and never assigns to a field of `this`, so the post-call
receiver is the unchanged record. -/
def Currency.addM (c : Currency) (number : JSVal) : Except String Currency × Currency :=
  (c.add number, c)

/-- State-threading view of `subtract` (reads locals only, writes no field). -/
def Currency.subtractM (c : Currency) (number : JSVal) : Except String Currency × Currency :=
  (c.subtract number, c)

/-- State-threading view of `multiply` (reads locals only, writes no field). -/
def Currency.multiplyM (c : Currency) (number : JSNum) : Except String Currency × Currency :=
  (c.multiply number, c)

/-- State-threading view of `divide` (reads locals only, writes no field). -/
def Currency.divideM (c : Currency) (number : JSVal) : Except String Currency × Currency :=
  (c.divide number, c)

/-- State-threading view of `distribute`: the loop mutates the local
variables `count`, `pennies` and `distribution` only. -/
def Currency.distributeM (c : Currency) (count : ℕ) :
    Except String (List Currency) × Currency :=
  (c.distribute count, c)

/-- State-threading view of `dollars` (the `console.log` writes to the
console, not to the instance). -/
def Currency.dollarsM (c : Currency) : ℚ × Currency :=
  (c.dollars, c)

/-- State-threading view of `cents`. -/
def Currency.centsM (c : Currency) : ℚ × Currency :=
  (c.cents, c)

/-- State-threading view of `format`. -/
def Currency.formatM (c : Currency) (useSymbol : Option Bool) : String × Currency :=
  (c.format useSymbol, c)

/-- State-threading view of `toString`. -/
def Currency.toStringM (c : Currency) : String × Currency :=
  (Currency.toString c, c)

/-- State-threading view of `toJSON`. -/
def Currency.toJSONM (c : Currency) : JSNum × Currency :=
  (c.toJSON, c)

/-! ### Bridge lemmas for the computable floor and basic rounding facts -/

lemma qfloor_eq (q : ℚ) : qfloor q = ⌊q⌋ := Rat.floor_def.symm

lemma qceil_eq (q : ℚ) : qceil q = ⌈q⌉ := by
  unfold qceil
  rw [qfloor_eq, Int.floor_neg, neg_neg]

lemma floor_add_half_int (m : ℤ) : ⌊(m : ℚ) + 1/2⌋ = m :=
  Int.floor_eq_iff.mpr ⟨by linarith, by norm_num⟩

lemma ratToFixed_intCast (m : ℤ) (d : ℕ) : ratToFixed (m : ℚ) d = m := by
  unfold ratToFixed
  rw [qfloor_eq]
  have hpow : ((10 : ℚ) ^ d) ≠ 0 := pow_ne_zero _ (by norm_num)
  have habs : |(m : ℚ)| * 10 ^ d = ((|m| * 10 ^ d : ℤ) : ℚ) := by push_cast; ring
  rw [habs, floor_add_half_int]
  by_cases h : m < 0
  · have h' : (m : ℚ) < 0 := by exact_mod_cast h
    rw [if_pos h', abs_of_neg h]
    push_cast
    field_simp
  · have h' : ¬ (m : ℚ) < 0 := by exact_mod_cast h
    rw [if_neg h', abs_of_nonneg (by omega)]
    push_cast
    field_simp

lemma jsRound_intCast (m : ℤ) : jsRound (some (m : ℚ)) = some (m : ℚ) := by
  show some ((qfloor ((m : ℚ) + 1/2) : ℤ) : ℚ) = some (m : ℚ)
  rw [qfloor_eq, floor_add_half_int]

lemma jsToFixed4_intCast (m : ℤ) : jsToFixed4 (some (m : ℚ)) = some (m : ℚ) := by
  simp [jsToFixed4, ratToFixed_intCast]

lemma parse_num_int (m : ℤ) (st : Settings) (r : Bool) :
    parse (.num (some ((m : ℚ) / 10 ^ st.precision))) st r = .ok (some (m : ℚ)) := by
  have hpow : ((10 : ℚ) ^ st.precision) ≠ 0 := pow_ne_zero _ (by norm_num)
  unfold parse
  simp only [jsMul, Except.map, div_mul_cancel₀ _ hpow]
  rw [jsToFixed4_intCast]
  cases r <;> simp [jsRound_intCast]

/-! ### Settings normalization -/

lemma buildSettings_toOpts_precision (s : Settings) :
    (buildSettings s.toOpts).precision = s.precision := rfl

lemma buildSettings_normal (o : Opts) : (buildSettings o).Normal := by
  refine ⟨?_, rfl⟩
  unfold buildSettings
  by_cases h : jsTruthy (o.increment.getD jsNaN)
  · simp [h]
  · simp only [h, if_false]
    simp [jsTruthy]

lemma buildSettings_toOpts_eq (s : Settings) (h : s.Normal) :
    buildSettings s.toOpts = s := by
  obtain ⟨h1, h2⟩ := h
  unfold buildSettings Settings.toOpts
  cases s with
  | mk symbol separator decimal formatWithSymbol errorOnInvalid precision pattern negativePattern increment useVedic groups =>
    simp_all

lemma buildSettings_idem (o : Opts) : buildSettings (buildSettings o).toOpts = buildSettings o :=
  buildSettings_toOpts_eq _ (buildSettings_normal o)

/-! ### Reduction helpers for the exception monad -/

lemma ok_bind {α β : Type} (a : α) (f : α → Except String β) :
    (Except.ok a : Except String α) >>= f = f a := rfl

lemma pure_ok {α : Type} (a : α) : (pure a : Except String α) = .ok a := rfl

lemma jsDiv_pow (a : ℚ) (p : ℕ) : jsDiv (some a) (some ((10 : ℚ) ^ p)) = some (a / 10 ^ p) := by
  simp [jsDiv, pow_ne_zero]

/-! ### The constructor on exact integer amounts -/

lemma mkCurrency_num_int (m : ℤ) (o : Opts) :
    mkCurrency (.num (some ((m : ℚ) / 10 ^ (buildSettings o).precision))) o =
      .ok { intValue := some (m : ℚ),
            value := some ((m : ℚ) / 10 ^ (buildSettings o).precision),
            settings := buildSettings o,
            precisionF := 10 ^ (buildSettings o).precision } := by
  unfold mkCurrency
  show Except.map _ (parse (.num (some ((m : ℚ) / 10 ^ (buildSettings o).precision)))
    (buildSettings o)) = _
  rw [parse_num_int]
  simp [Except.map, jsDiv_pow]

lemma Currency.add_num_int (c : Currency) (hp : c.precisionF = 10 ^ c.settings.precision)
    (a : ℤ) (ha : c.intValue = some (a : ℚ)) (m : ℤ) :
    c.add (.num (some ((m : ℚ) / 10 ^ c.settings.precision))) =
      .ok { intValue := some ((a + m : ℤ) : ℚ),
            value := some (((a + m : ℤ) : ℚ) / 10 ^ (buildSettings c.settings.toOpts).precision),
            settings := buildSettings c.settings.toOpts,
            precisionF := 10 ^ (buildSettings c.settings.toOpts).precision } := by
  unfold Currency.add
  rw [parse_num_int]
  have h1 : jsDiv (jsAdd c.intValue (some (m : ℚ))) (some c.precisionF) =
      some (((a + m : ℤ) : ℚ) / 10 ^ (buildSettings c.settings.toOpts).precision) := by
    rw [ha, hp, buildSettings_toOpts_precision]
    simp [jsAdd, jsDiv_pow]
  show mkCurrency (.num (jsDiv (jsAdd c.intValue (some (m : ℚ))) (some c.precisionF)))
    c.settings.toOpts = _
  rw [h1]
  exact mkCurrency_num_int (a + m) c.settings.toOpts

lemma Currency.subtract_num_int (c : Currency) (hp : c.precisionF = 10 ^ c.settings.precision)
    (a : ℤ) (ha : c.intValue = some (a : ℚ)) (m : ℤ) :
    c.subtract (.num (some ((m : ℚ) / 10 ^ c.settings.precision))) =
      .ok { intValue := some ((a - m : ℤ) : ℚ),
            value := some (((a - m : ℤ) : ℚ) / 10 ^ (buildSettings c.settings.toOpts).precision),
            settings := buildSettings c.settings.toOpts,
            precisionF := 10 ^ (buildSettings c.settings.toOpts).precision } := by
  unfold Currency.subtract
  rw [parse_num_int]
  have h1 : jsDiv (jsSub c.intValue (some (m : ℚ))) (some c.precisionF) =
      some (((a - m : ℤ) : ℚ) / 10 ^ (buildSettings c.settings.toOpts).precision) := by
    rw [ha, hp, buildSettings_toOpts_precision]
    simp [jsSub, jsDiv_pow]
  show mkCurrency (.num (jsDiv (jsSub c.intValue (some (m : ℚ))) (some c.precisionF)))
    c.settings.toOpts = _
  rw [h1]
  exact mkCurrency_num_int (a - m) c.settings.toOpts

/-! ### The distribution algorithm -/

lemma mkShare_settings (st : Settings) (z : ℤ) :
    (mkShare st z).settings = buildSettings st.toOpts := rfl

lemma mkShare_intValue (st : Settings) (z : ℤ) : (mkShare st z).intValue = some (z : ℚ) := rfl

lemma mkCurrency_num_share (st : Settings) (m : ℤ) :
    mkCurrency (.num (some ((m : ℚ) / 10 ^ st.precision))) st.toOpts = .ok (mkShare st m) := by
  have h := mkCurrency_num_int m st.toOpts
  rw [buildSettings_toOpts_precision] at h
  exact h

lemma mkShare_add_one (st : Settings) (z : ℤ) :
    (mkShare st z).add (.num (jsDiv (some 1) (some ((10 : ℚ) ^ st.precision)))) =
      .ok (mkShare st (z + 1)) := by
  have h := Currency.add_num_int (mkShare st z) rfl z rfl 1
  simp only [mkShare_settings, buildSettings_toOpts_precision, buildSettings_idem,
    Int.cast_one] at h
  rw [jsDiv_pow]
  exact h

lemma mkShare_sub_one (st : Settings) (z : ℤ) :
    (mkShare st z).subtract (.num (jsDiv (some 1) (some ((10 : ℚ) ^ st.precision)))) =
      .ok (mkShare st (z - 1)) := by
  have h := Currency.subtract_num_int (mkShare st z) rfl z rfl 1
  simp only [mkShare_settings, buildSettings_toOpts_precision, buildSettings_idem,
    Int.cast_one] at h
  rw [jsDiv_pow]
  exact h

lemma range_map_shift {α : Type} (f : ℕ → α) (k : ℕ) :
    (List.range (k + 1)).map f = f 0 :: (List.range k).map (fun i => f (i + 1)) := by
  rw [List.range_succ_eq_map]
  simp [List.map_map, Function.comp]

lemma distributeLoop_spec (c : Currency) (hp : c.precisionF = 10 ^ c.settings.precision)
    (A : ℤ) (hA : c.intValue = some (A : ℚ)) (s : ℤ) :
    ∀ (k : ℕ) (pen : ℤ),
      distributeLoop c (some (s : ℚ)) k (some (pen : ℚ)) =
        .ok ((List.range k).map fun (i : ℕ) =>
          mkShare c.settings (if (i : ℤ) < pen then (if 0 ≤ A then s + 1 else s - 1) else s)) := by
  intro k
  induction k with
  | zero => intro pen; rfl
  | succ k ih =>
    intro pen
    have hdivs : jsDiv (some (s : ℚ)) (some ((10 : ℚ) ^ c.settings.precision)) =
        some ((s : ℚ) / 10 ^ c.settings.precision) := jsDiv_pow _ _
    have h0 := mkCurrency_num_share c.settings s
    have hsub1 : jsSub (some ((pen : ℤ) : ℚ)) (some 1) = some (((pen - 1 : ℤ) : ℚ)) := by
      simp [jsSub]
    simp only [distributeLoop, hp, hdivs, h0, ok_bind, hsub1, ih]
    by_cases hpen : 0 < pen
    · have hgt : jgt0 (some ((pen : ℤ) : ℚ)) = true := by
        simp only [jgt0, decide_eq_true_eq]
        exact_mod_cast hpen
      by_cases hA0 : 0 ≤ A
      · have hge : jge0 c.intValue = true := by
          rw [hA]
          simp only [jge0, decide_eq_true_eq]
          exact_mod_cast hA0
        simp only [hgt, hge, if_true, mkShare_add_one, ok_bind, pure_ok]
        rw [range_map_shift]
        refine congrArg Except.ok ?_
        have hhead : mkShare c.settings
            (if ((0 : ℕ) : ℤ) < pen then (if 0 ≤ A then s + 1 else s - 1) else s) =
            mkShare c.settings (s + 1) := by
          rw [if_pos (by exact_mod_cast hpen), if_pos hA0]
        rw [hhead]
        refine congrArg (mkShare c.settings (s + 1) :: ·) ?_
        refine (List.map_congr_left ?_).symm
        intro i _
        by_cases hi : (i : ℤ) < pen - 1
        · rw [if_pos hi, if_pos (by push_cast; omega)]
        · rw [if_neg hi, if_neg (by push_cast; omega)]
      · have hge : jge0 c.intValue = false := by
          rw [hA]
          simp only [jge0, decide_eq_false_iff_not]
          exact_mod_cast hA0
        simp only [hgt, hge, if_true, Bool.false_eq_true, if_false, mkShare_sub_one,
          ok_bind, pure_ok]
        rw [range_map_shift]
        refine congrArg Except.ok ?_
        have hhead : mkShare c.settings
            (if ((0 : ℕ) : ℤ) < pen then (if 0 ≤ A then s + 1 else s - 1) else s) =
            mkShare c.settings (s - 1) := by
          rw [if_pos (by exact_mod_cast hpen), if_neg hA0]
        rw [hhead]
        refine congrArg (mkShare c.settings (s - 1) :: ·) ?_
        refine (List.map_congr_left ?_).symm
        intro i _
        by_cases hi : (i : ℤ) < pen - 1
        · rw [if_pos hi, if_pos (by push_cast; omega)]
        · rw [if_neg hi, if_neg (by push_cast; omega)]
    · have hgt : jgt0 (some ((pen : ℤ) : ℚ)) = false := by
        simp only [jgt0, decide_eq_false_iff_not]
        exact_mod_cast hpen
      simp only [hgt, Bool.false_eq_true, if_false, ok_bind, pure_ok]
      rw [range_map_shift]
      refine congrArg Except.ok ?_
      have hhead : mkShare c.settings
          (if ((0 : ℕ) : ℤ) < pen then (if 0 ≤ A then s + 1 else s - 1) else s) =
          mkShare c.settings s := by
        rw [if_neg (by exact_mod_cast hpen)]
      rw [hhead]
      refine congrArg (mkShare c.settings s :: ·) ?_
      refine (List.map_congr_left ?_).symm
      intro i _
      by_cases hi : (i : ℤ) < pen - 1
      · rw [if_pos hi, if_pos (by push_cast; omega)]
      · rw [if_neg hi, if_neg (by push_cast; omega)]

lemma splitOf_bounds_pos (A : ℤ) (count : ℕ) (hc : 1 ≤ count) (hA0 : 0 ≤ A) :
    0 ≤ A - splitOf A count * count ∧ A - splitOf A count * count < count := by
  have hc0 : (0 : ℚ) < (count : ℚ) := by exact_mod_cast hc
  unfold splitOf
  rw [if_pos hA0]
  set s : ℤ := ⌊(A : ℚ) / count⌋ with hs
  have h1' : (s : ℚ) * count ≤ (A : ℚ) := by
    rw [← le_div_iff₀ hc0]; exact Int.floor_le _
  have h2' : (A : ℚ) < (s + 1) * count := by
    rw [← div_lt_iff₀ hc0]; exact Int.lt_floor_add_one _
  have h1z : s * (count : ℤ) ≤ A := by exact_mod_cast h1'
  have h2z : A < (s + 1) * (count : ℤ) := by exact_mod_cast h2'
  have hexp : (s + 1) * (count : ℤ) = s * count + count := by ring
  omega

lemma splitOf_bounds_neg (A : ℤ) (count : ℕ) (hc : 1 ≤ count) (hA0 : ¬ 0 ≤ A) :
    0 ≤ splitOf A count * count - A ∧ splitOf A count * count - A < count := by
  have hc0 : (0 : ℚ) < (count : ℚ) := by exact_mod_cast hc
  unfold splitOf
  rw [if_neg hA0]
  set s : ℤ := ⌈(A : ℚ) / count⌉ with hs
  have h1 : (A : ℚ) / count ≤ (s : ℚ) := Int.le_ceil _
  have h2 : (s : ℚ) - 1 < (A : ℚ) / count := by
    have h := Int.ceil_lt_add_one ((A : ℚ) / count)
    rw [← hs] at h
    linarith
  have h1' : (A : ℚ) ≤ s * count := by
    rw [← div_le_iff₀ hc0]; exact h1
  have h2' : ((s : ℚ) - 1) * count < (A : ℚ) := by
    rw [← lt_div_iff₀ hc0]; exact h2
  have h1z : A ≤ s * (count : ℤ) := by exact_mod_cast h1'
  have h2z : (s - 1) * (count : ℤ) < A := by exact_mod_cast h2'
  have hexp : (s - 1) * (count : ℤ) = s * count - count := by ring
  omega

lemma penniesOf_lt (A : ℤ) (count : ℕ) (hc : 1 ≤ count) : penniesOf A count < count := by
  unfold penniesOf
  by_cases hA0 : 0 ≤ A
  · have h := splitOf_bounds_pos A count hc hA0
    omega
  · have h := splitOf_bounds_neg A count hc hA0
    omega

lemma penniesOf_cast_pos (A : ℤ) (count : ℕ) (hc : 1 ≤ count) (hA0 : 0 ≤ A) :
    (penniesOf A count : ℤ) = A - splitOf A count * count := by
  unfold penniesOf
  exact Int.natAbs_of_nonneg (splitOf_bounds_pos A count hc hA0).1

lemma penniesOf_cast_neg (A : ℤ) (count : ℕ) (hc : 1 ≤ count) (hA0 : ¬ 0 ≤ A) :
    (penniesOf A count : ℤ) = splitOf A count * count - A := by
  unfold penniesOf
  rw [← Int.natAbs_neg]
  have h : -(A - splitOf A count * count) = splitOf A count * count - A := by ring
  rw [h]
  exact Int.natAbs_of_nonneg (splitOf_bounds_neg A count hc hA0).1

lemma range_map_ite {α : Type} (x y : α) :
    ∀ (cnt p : ℕ), (List.range cnt).map (fun i => if i < p then x else y) =
      List.replicate (min p cnt) x ++ List.replicate (cnt - p) y := by
  intro cnt
  induction cnt with
  | zero => intro p; simp
  | succ k ih =>
    intro p
    rw [range_map_shift]
    cases p with
    | zero =>
      simp only [Nat.not_lt_zero, if_false, Nat.min_zero, Nat.sub_zero,
        List.replicate, List.nil_append]
      simp [List.map_const', List.replicate_succ]
    | succ q =>
      simp only [Nat.succ_lt_succ_iff]
      have hh : (if 0 < q + 1 then x else y) = x := by simp
      rw [hh]
      rw [ih q]
      have hmin : min (q + 1) (k + 1) = min q k + 1 := by omega
      rw [hmin]
      simp [List.replicate_succ]

lemma Currency.distribute_ok (c : Currency) (hp : c.precisionF = 10 ^ c.settings.precision)
    (A : ℤ) (hA : c.intValue = some (A : ℚ)) (count : ℕ) (hc : 1 ≤ count) :
    c.distribute count =
      .ok (List.replicate (penniesOf A count)
             (mkShare c.settings (if 0 ≤ A then splitOf A count + 1 else splitOf A count - 1)) ++
           List.replicate (count - penniesOf A count) (mkShare c.settings (splitOf A count))) := by
  have hc0 : (0 : ℚ) < (count : ℚ) := by exact_mod_cast hc
  have hdivA : jsDiv (some (A : ℚ)) (some (count : ℚ)) = some ((A : ℚ) / count) := by
    simp [jsDiv, ne_of_gt hc0]
  unfold Currency.distribute
  rw [hA, hdivA]
  have hsplit : ((if jge0 (some (A : ℚ)) = true then jsFloor else jsCeil) (some ((A : ℚ) / count))) =
      some ((splitOf A count : ℤ) : ℚ) := by
    unfold splitOf
    by_cases hA0 : 0 ≤ A
    · rw [if_pos (by simp only [jge0, decide_eq_true_eq]; exact_mod_cast hA0), if_pos hA0]
      simp [jsFloor, qfloor_eq]
    · have hcond : ¬(jge0 (some (A : ℚ)) = true) := by
        simp only [jge0, decide_eq_true_eq]
        intro h
        exact hA0 (by exact_mod_cast h)
      rw [if_neg hcond, if_neg hA0]
      simp [jsCeil, qceil_eq]
  rw [hsplit]
  have hpen : jsAbs (jsSub (some (A : ℚ))
        (jsMul (some ((splitOf A count : ℤ) : ℚ)) (some (count : ℚ)))) =
      some ((((penniesOf A count : ℕ) : ℤ) : ℚ)) := by
    simp only [jsMul, jsSub, jsAbs, penniesOf]
    congr 1
    have h1 : ((A : ℚ) - (splitOf A count : ℚ) * count) =
        (((A - splitOf A count * count : ℤ)) : ℚ) := by push_cast; ring
    rw [h1, ← Int.cast_abs]
    have h2 : |A - splitOf A count * (count : ℤ)| =
        (((A - splitOf A count * count).natAbs : ℕ) : ℤ) := by
      rw [Int.abs_eq_natAbs]
    rw [h2]
  show distributeLoop c (some ((splitOf A count : ℤ) : ℚ)) count
      (jsAbs (jsSub (some (A : ℚ))
        (jsMul (some ((splitOf A count : ℤ) : ℚ)) (some (count : ℚ))))) = _
  rw [hpen]
  rw [distributeLoop_spec c hp A hA (splitOf A count) count ((penniesOf A count : ℕ) : ℤ)]
  refine congrArg Except.ok ?_
  have hmap : (List.range count).map (fun (i : ℕ) =>
      mkShare c.settings (if (i : ℤ) < ((penniesOf A count : ℕ) : ℤ) then
        (if 0 ≤ A then splitOf A count + 1 else splitOf A count - 1) else splitOf A count)) =
      (List.range count).map (fun (i : ℕ) =>
        if i < penniesOf A count then
          mkShare c.settings (if 0 ≤ A then splitOf A count + 1 else splitOf A count - 1)
        else mkShare c.settings (splitOf A count)) := by
    refine List.map_congr_left ?_
    intro i _
    by_cases hi : i < penniesOf A count
    · rw [if_pos (by exact_mod_cast hi), if_pos hi]
    · rw [if_neg (by exact_mod_cast hi), if_neg hi]
  rw [hmap, range_map_ite]
  have hmin : min (penniesOf A count) count = penniesOf A count :=
    min_eq_left (le_of_lt (penniesOf_lt A count hc))
  rw [hmin]

lemma foldr_jsAdd_replicate (n : ℕ) (q r : ℚ) :
    (List.replicate n (some q)).foldr jsAdd (some r) = some (n * q + r) := by
  induction n with
  | zero => simp
  | succ n ih =>
    rw [List.replicate_succ, List.foldr_cons, ih]
    simp only [jsAdd]
    congr 1
    push_cast
    ring

lemma jsum_two_replicates (n m : ℕ) (q r : ℚ) :
    jsum (List.replicate n (some q) ++ List.replicate m (some r)) =
      some (n * q + m * r) := by
  unfold jsum
  rw [List.foldr_append, foldr_jsAdd_replicate, foldr_jsAdd_replicate]
  congr 1
  ring

/-- C1: for a receiver holding the integer minor-unit amount `A` and any
`count ≥ 1`, `distribute(count)` succeeds with exactly `count` shares
whose `intValue` fields sum to `A` — no minor units are lost or
invented. -/
theorem distribute_conserves_total (c : Currency) (A : ℤ) (count : ℕ)
    (hA : c.intValue = some (A : ℚ)) (hp : c.precisionF = 10 ^ c.settings.precision)
    (hc : 1 ≤ count) :
    ∃ l, c.distribute count = .ok l ∧ l.length = count ∧
      jsum (l.map Currency.intValue) = some (A : ℚ) := by
  refine ⟨_, Currency.distribute_ok c hp A hA count hc, ?_, ?_⟩
  · have hlt := penniesOf_lt A count hc
    simp [List.length_append, List.length_replicate]
    omega
  · rw [List.map_append, List.map_replicate, List.map_replicate, mkShare_intValue,
      mkShare_intValue, jsum_two_replicates]
    congr 1
    by_cases hA0 : 0 ≤ A
    · have hpen := penniesOf_cast_pos A count hc hA0
      have hlt := penniesOf_lt A count hc
      rw [if_pos hA0, Nat.cast_sub (le_of_lt hlt)]
      have hq : ((penniesOf A count : ℕ) : ℚ) = ((A : ℚ) - splitOf A count * count) := by
        exact_mod_cast congrArg (fun z : ℤ => (z : ℚ)) hpen
      rw [hq]
      push_cast
      ring
    · have hpen := penniesOf_cast_neg A count hc hA0
      have hlt := penniesOf_lt A count hc
      rw [if_neg hA0, Nat.cast_sub (le_of_lt hlt)]
      have hq : ((penniesOf A count : ℕ) : ℚ) = ((splitOf A count : ℚ) * count - A) := by
        exact_mod_cast congrArg (fun z : ℤ => (z : ℚ)) hpen
      rw [hq]
      push_cast
      ring

/-- C6: with `split = floor(A/count)` for `A ≥ 0` (else `ceil(A/count)`)
and `pennies = |A - split        * count|`, the shares come out in order: each of
the first `pennies` shares carries `split + 1` minor units (`split - 1`
when the total is negative) and every later share carries exactly
`split`. -/
theorem distribute_share_shape (c : Currency) (A : ℤ) (count : ℕ)
    (hA : c.intValue = some (A : ℚ)) (hp : c.precisionF = 10 ^ c.settings.precision)
    (hc : 1 ≤ count) :
    ∃ l, c.distribute count = .ok l ∧
      l.map Currency.intValue =
        List.replicate (penniesOf A count)
          (some (((if 0 ≤ A then splitOf A count + 1 else splitOf A count - 1) : ℤ) : ℚ)) ++
        List.replicate (count - penniesOf A count) (some ((splitOf A count : ℤ) : ℚ)) := by
  refine ⟨_, Currency.distribute_ok c hp A hA count hc, ?_⟩
  rw [List.map_append, List.map_replicate, List.map_replicate, mkShare_intValue,
    mkShare_intValue]

/-! ### Valid decimal strings and the round-trip through parse/toString -/

lemma digitChar_facts : ∀ d : Fin 10,
    (Nat.digitChar d.val).isDigit = true ∧ (Nat.digitChar d.val).toNat - 48 = d.val ∧
    Nat.digitChar d.val ≠ '-' ∧ Nat.digitChar d.val ≠ '+' ∧ Nat.digitChar d.val ≠ '(' ∧
    Nat.digitChar d.val ≠ ')' ∧ Nat.digitChar d.val ≠ '.' := by decide

lemma firstIdxOf_eq_none (ch : Char) (cs : List Char) (h : ∀ c ∈ cs, c ≠ ch) :
    firstIdxOf ch cs = none := by
  induction cs with
  | nil => rfl
  | cons x xs ih =>
    have hx : x ≠ ch := h x (by simp)
    simp only [firstIdxOf, if_neg hx, ih fun c hc => h c (by simp [hc]), Option.map_none']

lemma parenNeg_no_paren (cs : List Char) (h : ∀ c ∈ cs, c ≠ '(') : parenNeg cs = cs := by
  unfold parenNeg
  rw [firstIdxOf_eq_none '(' cs h]

lemma replaceDecimal_dot (cs : List Char) : replaceDecimal '.' cs = cs := by
  unfold replaceDecimal
  induction cs with
  | nil => rfl
  | cons x xs ih =>
    by_cases hx : x = '.'
    · simp [hx, ih]
    · simp [hx, ih]

lemma filter_keep_all (p : Char → Bool) (cs : List Char) (h : ∀ c ∈ cs, p c = true) :
    cs.filter p = cs := by
  induction cs with
  | nil => rfl
  | cons x xs ih =>
    rw [List.filter_cons, if_pos (h x (by simp)), ih fun c hc => h c (by simp [hc])]

lemma takeWhile_dropWhile_append (p : Char → Bool) (xs ys : List Char)
    (h1 : ∀ x ∈ xs, p x = true)
    (h2 : ys = [] ∨ ∃ y ys', ys = y :: ys' ∧ p y = false) :
    (xs ++ ys).takeWhile p = xs ∧ (xs ++ ys).dropWhile p = ys := by
  induction xs with
  | nil =>
    rcases h2 with h2 | ⟨y, ys', rfl, hy⟩
    · subst h2; exact ⟨rfl, rfl⟩
    · simp [List.takeWhile, List.dropWhile, hy]
  | cons x xs ih =>
    have hx : p x = true := h1 x (by simp)
    have hrec := ih fun c hc => h1 c (by simp [hc])
    simp [List.takeWhile_cons, List.dropWhile_cons, hx, hrec.1, hrec.2]

lemma foldl_digit_congr : ∀ (ds : List (Fin 10)) (a : ℕ),
    (digitChars ds).foldl (fun a c => 10 * a + (c.toNat - 48)) a =
      ds.foldl (fun a d => 10 * a + d.val) a := by
  intro ds
  induction ds with
  | nil => intro a; rfl
  | cons d ds ih =>
    intro a
    simp only [digitChars, List.map_cons, List.foldl_cons] at *
    rw [(digitChar_facts d).2.1, ih]

lemma digitsVal_digitChars (ds : List (Fin 10)) : digitsVal (digitChars ds) = digitsNum ds :=
  foldl_digit_congr ds 0

lemma digitChars_all_digit (fs : List (Fin 10)) : (digitChars fs).all Char.isDigit = true := by
  rw [List.all_eq_true]
  intro c hc
  simp only [digitChars, List.mem_map] at hc
  obtain ⟨d, _, rfl⟩ := hc
  exact (digitChar_facts d).1

lemma digitChars_eq_nil_iff (ds : List (Fin 10)) : digitChars ds = [] ↔ ds = [] := by
  simp [digitChars]

lemma digitChars_length (ds : List (Fin 10)) : (digitChars ds).length = ds.length := by
  simp [digitChars]

lemma strToUnsigned_parts (ds fs : List (Fin 10)) (withDot : Bool)
    (hdot : withDot = false → fs = []) (hne : ds ++ fs ≠ []) :
    strToUnsigned (digitChars ds ++ (if withDot then '.' :: digitChars fs else [])) =
      some ((digitsNum ds : ℚ) + (digitsNum fs : ℚ) / 10 ^ fs.length) := by
  have hall : ∀ c ∈ digitChars ds, Char.isDigit c = true := by
    intro c hc
    simp only [digitChars, List.mem_map] at hc
    obtain ⟨d, _, rfl⟩ := hc
    exact (digitChar_facts d).1
  cases withDot with
  | false =>
    have hfs : fs = [] := hdot rfl
    subst hfs
    have hds : ds ≠ [] := by simpa using hne
    simp only [if_false, Bool.false_eq_true, List.append_nil]
    have tw := takeWhile_dropWhile_append Char.isDigit (digitChars ds) [] hall (Or.inl rfl)
    rw [List.append_nil] at tw
    simp only [strToUnsigned, tw.1, tw.2]
    rw [if_neg (by simpa [List.isEmpty_iff, digitChars_eq_nil_iff] using hds)]
    rw [digitsVal_digitChars]
    norm_num [digitsNum]
  | true =>
    have tw := takeWhile_dropWhile_append Char.isDigit (digitChars ds)
      ('.' :: digitChars fs) hall (Or.inr ⟨'.', digitChars fs, rfl, by decide⟩)
    simp only [if_true]
    simp only [strToUnsigned, tw.1, tw.2]
    have hcond : ((digitChars fs).all Char.isDigit &&
        (!(digitChars ds).isEmpty || !(digitChars fs).isEmpty)) = true := by
      rw [digitChars_all_digit]
      have hor : ds ≠ [] ∨ fs ≠ [] := by
        rcases ds with _ | ⟨d, ds⟩
        · right; simpa using hne
        · left; simp
      rcases hor with h | h
      · simp [List.isEmpty_iff, digitChars_eq_nil_iff, h]
      · simp [List.isEmpty_iff, digitChars_eq_nil_iff, h]
    rw [if_pos hcond]
    rw [digitsVal_digitChars, digitsVal_digitChars, digitChars_length]

lemma strToNum_not_sign (cs : List Char) (c : Char) (h : cs.head? = some c)
    (h1 : c ≠ '-') (h2 : c ≠ '+') : strToNum cs = strToUnsigned cs := by
  cases cs with
  | nil => simp at h
  | cons x xs =>
    simp only [List.head?_cons, Option.some.injEq] at h
    subst h
    simp [strToNum, h1, h2]

lemma strToNum_parts (neg : Bool) (ds fs : List (Fin 10)) (withDot : Bool)
    (hdot : withDot = false → fs = []) (hne : ds ++ fs ≠ []) :
    strToNum ((if neg then ['-'] else []) ++ digitChars ds ++
        (if withDot then '.' :: digitChars fs else [])) =
      some (ratOfParts neg ds fs) := by
  have hbody := strToUnsigned_parts ds fs withDot hdot hne
  cases neg with
  | true =>
    simp only [if_true, List.cons_append, List.nil_append]
    have hcons : strToNum ('-' :: (digitChars ds ++
        (if withDot = true then '.' :: digitChars fs else []))) =
        jsNeg (strToUnsigned (digitChars ds ++
          (if withDot = true then '.' :: digitChars fs else []))) := by
      simp [strToNum]
    rw [hcons, hbody]
    simp only [jsNeg, ratOfParts, eq_self_iff_true, if_true]
    congr 1
    ring
  | false =>
    simp only [if_false, Bool.false_eq_true, List.nil_append]
    cases ds with
    | nil =>
      cases withDot with
      | false => exact absurd (by simp [hdot rfl]) hne
      | true =>
        rw [strToNum_not_sign _ '.' (by simp [digitChars]) (by decide) (by decide), hbody]
        simp [ratOfParts]
    | cons d ds' =>
      rw [strToNum_not_sign _ (Nat.digitChar d.val) (by simp [digitChars])
        (digitChar_facts d).2.2.1 (digitChar_facts d).2.2.2.1, hbody]
      simp [ratOfParts]

lemma decimalString_chars_ne (neg : Bool) (ds fs : List (Fin 10)) (withDot : Bool) :
    ∀ c ∈ (if neg then ['-'] else []) ++ digitChars ds ++
      (if withDot then '.' :: digitChars fs else []), c ≠ '(' := by
  intro c hc
  simp only [List.mem_append] at hc
  rcases hc with (hc | hc) | hc
  · cases neg with
    | true => simp at hc; subst hc; decide
    | false => simp at hc
  · simp only [digitChars, List.mem_map] at hc
    obtain ⟨d, _, rfl⟩ := hc
    exact (digitChar_facts d).2.2.2.2.1
  · cases withDot with
    | true =>
      simp only [if_true, List.mem_cons] at hc
      rcases hc with rfl | hc
      · decide
      · simp only [digitChars, List.mem_map] at hc
        obtain ⟨d, _, rfl⟩ := hc
        exact (digitChar_facts d).2.2.2.2.1
    | false => simp at hc

lemma decimalString_chars_keep (neg : Bool) (ds fs : List (Fin 10)) (withDot : Bool) :
    ∀ c ∈ (if neg then ['-'] else []) ++ digitChars ds ++
      (if withDot then '.' :: digitChars fs else []), keepChar '.' c = true := by
  intro c hc
  simp only [List.mem_append] at hc
  rcases hc with (hc | hc) | hc
  · cases neg with
    | true => simp at hc; subst hc; decide
    | false => simp at hc
  · simp only [digitChars, List.mem_map] at hc
    obtain ⟨d, _, rfl⟩ := hc
    simp [keepChar, (digitChar_facts d).1]
  · cases withDot with
    | true =>
      simp only [if_true, List.mem_cons] at hc
      rcases hc with rfl | hc
      · decide
      · simp only [digitChars, List.mem_map] at hc
        obtain ⟨d, _, rfl⟩ := hc
        simp [keepChar, (digitChar_facts d).1]
    | false => simp at hc

lemma ratOfParts_mul_100 (neg : Bool) (ds fs : List (Fin 10)) (hfs : fs.length ≤ 2) :
    ratOfParts neg ds fs * 100 = ((intAmountOf neg ds fs : ℤ) : ℚ) := by
  have hpow : ((10 : ℚ) ^ fs.length) ≠ 0 := pow_ne_zero _ (by norm_num)
  have hsplitpow : ((10 : ℚ) ^ (2 - fs.length)) * 10 ^ fs.length = 100 := by
    rw [← pow_add]
    have h2 : 2 - fs.length + fs.length = 2 := by omega
    rw [h2]
    norm_num
  have hq : ((10 : ℚ) ^ (2 - fs.length)) = 100 / 10 ^ fs.length :=
    (eq_div_iff hpow).mpr hsplitpow
  unfold ratOfParts intAmountOf
  push_cast
  rw [hq]
  cases neg <;> simp only [if_true, if_false, Bool.false_eq_true, eq_self_iff_true]
  · field_simp
    ring
  · field_simp
    ring

lemma truthy_or_zero (q : ℚ) :
    (if jsTruthy (some q) = true then some q else some (0 : ℚ)) = some q := by
  by_cases h : q = 0
  · simp [jsTruthy, h]
  · simp [jsTruthy, h]

lemma parse_valid_string (neg : Bool) (ds fs : List (Fin 10)) (withDot : Bool)
    (hfs : fs.length ≤ 2) (hdot : withDot = false → fs = []) (hne : ds ++ fs ≠ []) :
    parse (.str (decimalStringOf neg ds fs withDot)) (buildSettings {}) =
      .ok (some ((intAmountOf neg ds fs : ℤ) : ℚ)) := by
  have hchars := decimalString_chars_ne neg ds fs withDot
  have hkeep := decimalString_chars_keep neg ds fs withDot
  have htolist : (decimalStringOf neg ds fs withDot).toList =
      (if neg then ['-'] else []) ++ digitChars ds ++
        (if withDot then '.' :: digitChars fs else []) := rfl
  simp only [parse, htolist]
  rw [show (buildSettings ({} : Opts)).decimal = '.' from rfl,
    show (buildSettings ({} : Opts)).precision = 2 from rfl]
  rw [parenNeg_no_paren _ hchars, filter_keep_all _ _ hkeep, replaceDecimal_dot,
    strToNum_parts neg ds fs withDot hdot hne]
  have hmul : jsMul (some (ratOfParts neg ds fs)) (some ((10 : ℚ) ^ (2 : ℕ))) =
      some ((intAmountOf neg ds fs : ℤ) : ℚ) := by
    simp only [jsMul]
    rw [show ((10 : ℚ) ^ (2 : ℕ)) = 100 by norm_num]
    rw [ratOfParts_mul_100 neg ds fs hfs]
  rw [hmul, truthy_or_zero]
  simp only [Except.map, jsToFixed4_intCast, jsRound_intCast]
  simp

lemma mkCurrency_valid_string (neg : Bool) (ds fs : List (Fin 10)) (withDot : Bool)
    (hfs : fs.length ≤ 2) (hdot : withDot = false → fs = []) (hne : ds ++ fs ≠ []) :
    mkCurrency (.str (decimalStringOf neg ds fs withDot)) {} =
      .ok { intValue := some ((intAmountOf neg ds fs : ℤ) : ℚ)
            value := some (((intAmountOf neg ds fs : ℤ) : ℚ) / 10 ^ (2 : ℕ))
            settings := buildSettings {}
            precisionF := 10 ^ (2 : ℕ) } := by
  unfold mkCurrency
  show Except.map _ (parse (.str (decimalStringOf neg ds fs withDot)) (buildSettings {})) = _
  rw [parse_valid_string neg ds fs withDot hfs hdot hne]
  simp only [Except.map]
  rw [show (buildSettings ({} : Opts)).precision = 2 from rfl]
  rw [jsDiv_pow]

lemma toString_record_default (A : ℤ) (v : JSNum) :
    Currency.toString
      { intValue := some ((A : ℤ) : ℚ)
        value := v
        settings := buildSettings {}
        precisionF := 10 ^ (2 : ℕ) } =
      toFixedStr ((A : ℚ) / 100) 2 := by
  show jsToFixedStr (jsMul (jsRound (jsDiv (jsDiv (some ((A : ℤ) : ℚ))
      (some ((10 : ℚ) ^ (2 : ℕ)))) (buildSettings ({} : Opts)).increment))
      (buildSettings ({} : Opts)).increment) (buildSettings ({} : Opts)).precision = _
  rw [jsDiv_pow]
  rw [show (buildSettings ({} : Opts)).increment = some (1 / 10 ^ (2 : ℕ)) from rfl,
    show (buildSettings ({} : Opts)).precision = 2 from rfl]
  have h2 : jsDiv (some ((A : ℚ) / 10 ^ (2 : ℕ))) (some (1 / 10 ^ (2 : ℕ))) =
      some ((A : ℚ)) := by
    simp only [jsDiv]
    rw [if_neg (by norm_num)]
    congr 1
    field_simp
  rw [h2, jsRound_intCast]
  have h3 : jsMul (some ((A : ℤ) : ℚ)) (some (1 / 10 ^ (2 : ℕ))) = some ((A : ℚ) / 100) := by
    simp only [jsMul]
    congr 1
  rw [h3]
  rfl

/-- C8: constructing a value from a valid decimal string with at most two
fractional digits (default configuration, precision 2) and rendering it
with `toString` yields the normalized fixed-decimal form of the amount the
string denotes — the round trip through `parse` and `toString` preserves
the amount. -/
theorem parse_toString_roundtrip (neg : Bool) (ds fs : List (Fin 10)) (withDot : Bool)
    (hfs : fs.length ≤ 2) (hdot : withDot = false → fs = []) (hne : ds ++ fs ≠ []) :
    (mkCurrency (.str (decimalStringOf neg ds fs withDot)) {}).map Currency.toString =
      .ok (normalizedRendering neg ds fs) := by
  rw [mkCurrency_valid_string neg ds fs withDot hfs hdot hne]
  simp only [Except.map]
  rw [toString_record_default]
  unfold normalizedRendering
  have h100 : (100 : ℚ) ≠ 0 := by norm_num
  have hval : ((intAmountOf neg ds fs : ℤ) : ℚ) / 100 = ratOfParts neg ds fs := by
    rw [eq_comm, eq_div_iff h100]
    exact ratOfParts_mul_100 neg ds fs hfs
  rw [hval]

/-! ### Error behaviour of parse and the constructor -/

lemma except_map_error {α β : Type} (f : α → β) (x : Except String α) (e : String)
    (h : x.map f = .error e) : x = .error e := by
  cases x with
  | error e' => simpa [Except.map] using h
  | ok a => simp [Except.map] at h

/-- C2 (amended): `parse` raises exactly on a non-number, non-string,
non-instance input with `errorOnInvalid` enabled; the constructor raises
exactly on an input that is neither a number nor a string (an instance
input reaches the parser as the undefined `this.value`), again only with
`errorOnInvalid` enabled.  In particular every string and every numeric
input completes without error under either setting. -/
theorem invalid_input_error_iff :
    (∀ (v : JSVal) (st : Settings) (r : Bool),
      (∃ e, parse v st r = .error e) ↔ (st.errorOnInvalid = true ∧ v = .other)) ∧
    (∀ (v : JSVal) (o : Opts),
      (∃ e, mkCurrency v o = .error e) ↔
        ((buildSettings o).errorOnInvalid = true ∧ (v = .other ∨ ∃ c, v = .inst c))) := by
  have hparse : ∀ (v : JSVal) (st : Settings) (r : Bool),
      (∃ e, parse v st r = .error e) ↔ (st.errorOnInvalid = true ∧ v = .other) := by
    intro v st r
    cases v with
    | num n => simp [parse, Except.map]
    | str s => simp [parse, Except.map]
    | inst c => simp [parse, Except.map]
    | other =>
      cases herr : st.errorOnInvalid with
      | true => simp [parse, herr, Except.map]
      | false => simp [parse, herr, Except.map]
  refine ⟨hparse, ?_⟩
  intro v o
  constructor
  · rintro ⟨e, he⟩
    simp only [mkCurrency] at he
    have hp := except_map_error _ _ _ he
    have h2 := (hparse _ _ _).mp ⟨e, hp⟩
    refine ⟨h2.1, ?_⟩
    cases v with
    | num n => exact absurd h2.2 (by simp)
    | str s => exact absurd h2.2 (by simp)
    | inst c => exact Or.inr ⟨c, rfl⟩
    | other => exact Or.inl rfl
  · rintro ⟨h1, hv⟩
    refine ⟨"Invalid Input", ?_⟩
    rcases hv with rfl | ⟨c, rfl⟩
    · simp [mkCurrency, parse, h1, Except.map]
    · simp [mkCurrency, parse, h1, Except.map]

/-- C3: when the operand of `parse` is a value-type instance, the number
read is the prototype-level `value` field (undefined, coerced to NaN), not
the passed instance's own amount: two instances with different amounts
parse to the same result. -/
theorem parse_instance_ignores_amount (a b : Currency) (st : Settings) (r : Bool)
    (_hdiff : a.intValue ≠ b.intValue) :
    parse (.inst a) st r = parse (.inst b) st r ∧
      parse (.inst a) st r = .ok jsNaN :=
  ⟨rfl, by cases r <;> rfl⟩

theorem parse_instance_ignores_amount_witness :
    sampleCurrency.intValue ≠ sampleTwoCurrency.intValue ∧
      (parse (.inst sampleCurrency) (buildSettings {}) true =
          parse (.inst sampleTwoCurrency) (buildSettings {}) true ∧
        parse (.inst sampleCurrency) (buildSettings {}) true = .ok jsNaN) :=
  ⟨by decide, parse_instance_ignores_amount sampleCurrency sampleTwoCurrency
    (buildSettings {}) true (by decide)⟩

/-- C2 counterexample: the input here is a value-type instance — by the
claim, no error may be raised even with `errorOnInvalid` — yet the
construction throws `Invalid Input`. -/
theorem construction_from_instance_raises_cex :
    mkCurrency (.inst sampleCurrency) { errorOnInvalid := some true } =
      .error "Invalid Input" := by decide

/-- C7 counterexample: constructing from the string "abc" with
`errorOnInvalid: true` does not raise — the string branch of `parse`
never consults `errorOnInvalid` — and the value renders as "0.00". -/
theorem abc_with_error_flag_no_raise_cex :
    (mkCurrency (.str "abc") { errorOnInvalid := some true }).map Currency.toString =
      .ok "0.00" := by decide

/-- C7 (amended): `Value("abc")` renders as "0.00" with
`errorOnInvalid: false`, and with `errorOnInvalid: true` the construction
also succeeds and renders "0.00" (string inputs never raise). -/
theorem abc_lenient_both_settings :
    ((mkCurrency (.str "abc") { errorOnInvalid := some false }).map Currency.toString =
      .ok "0.00") ∧
    ((mkCurrency (.str "abc") { errorOnInvalid := some true }).map Currency.toString =
      .ok "0.00") := by decide

/-- C10: constructing a new value directly from an existing instance never
copies that instance's amount: the guarded assignment skips `this.value`,
the parser sees undefined, and the result is zero (or an `Invalid Input`
error when `errorOnInvalid` is enabled). -/
theorem construct_from_instance (v : Currency) (o : Opts) :
    (o.errorOnInvalid.getD false = false →
      ∃ c, mkCurrency (.inst v) o = .ok c ∧ c.intValue = some 0) ∧
    (o.errorOnInvalid.getD false = true →
      mkCurrency (.inst v) o = .error "Invalid Input") := by
  have herr : (buildSettings o).errorOnInvalid = o.errorOnInvalid.getD false := rfl
  constructor
  · intro h
    have herr2 : (buildSettings o).errorOnInvalid = false := herr.trans h
    have h0 : jsToFixed4 (some (0 : ℚ)) = some (0 : ℚ) := by simpa using jsToFixed4_intCast 0
    have h0' : jsRound (some (0 : ℚ)) = some (0 : ℚ) := by simpa using jsRound_intCast 0
    refine ⟨{ intValue := some 0
              value := jsDiv (some 0) (some (10 ^ (buildSettings o).precision))
              settings := buildSettings o
              precisionF := 10 ^ (buildSettings o).precision }, ?_, rfl⟩
    simp [mkCurrency, parse, herr2, Except.map, h0, h0']
  · intro h
    have herr2 : (buildSettings o).errorOnInvalid = true := herr.trans h
    simp [mkCurrency, parse, herr2, Except.map]

/-! ### Dollars and cents accessors -/

lemma ratTrunc_intCast (z : ℤ) : ratTrunc ((z : ℤ) : ℚ) = z := by
  unfold ratTrunc
  by_cases h : (0 : ℚ) ≤ (z : ℚ)
  · rw [if_pos h, qfloor_eq, Int.floor_intCast]
  · rw [if_neg h, qceil_eq, Int.ceil_intCast]

lemma toInt32_some_small (q : ℚ) (h1 : -2147483648 ≤ ratTrunc q)
    (h2 : ratTrunc q < 2147483648) :
    toInt32 (some q) = ((ratTrunc q : ℤ) : ℚ) := by
  simp only [toInt32]
  have hm : ratTrunc q % 4294967296 =
      if 0 ≤ ratTrunc q then ratTrunc q else ratTrunc q + 4294967296 := by
    by_cases hz : 0 ≤ ratTrunc q
    · rw [if_pos hz]
      omega
    · rw [if_neg hz]
      omega
  rw [hm]
  by_cases hz : 0 ≤ ratTrunc q
  · rw [if_pos hz, if_neg (by omega)]
  · rw [if_neg hz, if_pos (by omega)]
    push_cast
    ring

lemma toInt32_intCast_small (z : ℤ) (h1 : -2147483648 ≤ z) (h2 : z < 2147483648) :
    toInt32 (some ((z : ℤ) : ℚ)) = ((z : ℤ) : ℚ) := by
  have h := toInt32_some_small ((z : ℤ) : ℚ) (by rw [ratTrunc_intCast]; omega)
    (by rw [ratTrunc_intCast]; omega)
  rwa [ratTrunc_intCast] at h

lemma floor_int_div_100 (B : ℤ) : ⌊((B : ℚ) / 100)⌋ = B / 100 := by
  have h := Rat.floor_intCast_div_natCast B 100
  rw [show (((100 : ℕ) : ℚ)) = (100 : ℚ) by norm_num] at h
  rw [h]
  norm_num

lemma ratTrunc_int_div_100 (A : ℤ) : ratTrunc ((A : ℚ) / 100) = A.tdiv 100 := by
  unfold ratTrunc
  by_cases h : 0 ≤ A
  · have h' : (0 : ℚ) ≤ (A : ℚ) / 100 := by
      have : (0 : ℚ) ≤ (A : ℚ) := by exact_mod_cast h
      positivity
    rw [if_pos h', qfloor_eq, floor_int_div_100]
    exact (Int.tdiv_eq_ediv h (by norm_num)).symm
  · have hA : A < 0 := by omega
    have hAq : (A : ℚ) < 0 := by exact_mod_cast hA
    have h' : ¬ (0 : ℚ) ≤ (A : ℚ) / 100 := by
      rw [not_le]
      exact div_neg_of_neg_of_pos hAq (by norm_num)
    rw [if_neg h']
    unfold qceil
    rw [qfloor_eq]
    have hneg : -((A : ℚ) / 100) = (((-A : ℤ) : ℚ) / 100) := by push_cast; ring
    rw [hneg, floor_int_div_100]
    have hd1 : ((-A).tdiv 100) = (-A) / 100 := Int.tdiv_eq_ediv (by omega) (by norm_num)
    have hd2 : A.tdiv 100 = -((-A).tdiv 100) := by
      have hh := Int.neg_tdiv (-A) 100
      simp only [neg_neg] at hh
      omega
    rw [hd2, hd1]

lemma tmod_100_bounds (A : ℤ) : -100 < A.tmod 100 ∧ A.tmod 100 < 100 := by
  by_cases h : 0 ≤ A
  · have h1 := Int.tmod_nonneg 100 h
    have h2 := Int.tmod_lt_of_pos A (show (0 : ℤ) < 100 by norm_num)
    omega
  · have h1 := Int.tmod_nonneg 100 (show (0 : ℤ) ≤ -A by omega)
    have h2 := Int.tmod_lt_of_pos (-A) (show (0 : ℤ) < 100 by norm_num)
    have h3 : A.tmod 100 = -((-A).tmod 100) := by
      have hh := Int.neg_tdiv (-A) 100
      simp only [neg_neg] at hh
      rw [Int.tmod_def, Int.tmod_def, hh]
      ring
    omega

/-- C9 counterexample: at a value of 2^31 dollars the double bitwise-not
wraps: `dollars()` returns -2^31, not the toward-zero-truncated integer
part 2^31 the claim prescribes. -/
theorem dollars_wraps_at_two_pow_31_cex :
    bigCurrency.value = some (2147483648 : ℚ) ∧
      bigCurrency.dollars = (-2147483648 : ℚ) ∧
      bigCurrency.dollars ≠ ((ratTrunc (2147483648 : ℚ) : ℤ) : ℚ) := by decide

/-- C9 (amended): `dollars()` is ToInt32 of the float value, which agrees
with truncation toward zero exactly on values of magnitude below 2^31 (it
wraps beyond); `cents()` is ToInt32 of `intValue % precisionFactor`, the
signed truncated remainder (at the default precision factor 100); in
particular a value of -1.5 has `dollars() = -1` and `cents() = -50`. -/
theorem dollars_cents_signed_semantics :
    (∀ (c : Currency) (q : ℚ), c.value = some q →
      -2147483648 < (ratTrunc q : ℤ) → (ratTrunc q : ℤ) < 2147483648 →
      c.dollars = ((ratTrunc q : ℤ) : ℚ)) ∧
    (∀ (c : Currency) (A : ℤ), c.intValue = some ((A : ℤ) : ℚ) → c.precisionF = 100 →
      c.cents = ((A.tmod 100 : ℤ) : ℚ)) ∧
    ((mkCurrency (.num (some (-3 / 2))) {}).map (fun c => (c.dollars, c.cents)) =
      .ok (-1, -50)) := by
  refine ⟨?_, ?_, by decide⟩
  · intro c q hv h1 h2
    unfold Currency.dollars
    rw [hv]
    exact toInt32_some_small q (by omega) h2
  · intro c A hv hp
    unfold Currency.cents
    rw [hv, hp]
    have hmod : jsMod (some ((A : ℤ) : ℚ)) (some (100 : ℚ)) =
        some (((A.tmod 100 : ℤ) : ℚ)) := by
      simp only [jsMod]
      rw [if_neg (by norm_num)]
      congr 1
      rw [ratTrunc_int_div_100, Int.tmod_def]
      push_cast
      ring
    rw [hmod]
    have hb := tmod_100_bounds A
    exact toInt32_intCast_small (A.tmod 100) (by omega) (by omega)

/-- C4: every operation leaves the receiver's fields (`intValue`, `value`,
`_settings`, `_precision`) unchanged, and each arithmetic operation that
succeeds returns a value freshly built by the constructor (reference
identity is outside a value-level model; freshness is expressed as the
result being a new constructor application on the receiver's settings). -/
theorem operations_preserve_receiver :
    (∀ (c : Currency) (x : JSVal), (c.addM x).2 = c) ∧
    (∀ (c : Currency) (x : JSVal), (c.subtractM x).2 = c) ∧
    (∀ (c : Currency) (n : JSNum), (c.multiplyM n).2 = c) ∧
    (∀ (c : Currency) (x : JSVal), (c.divideM x).2 = c) ∧
    (∀ (c : Currency) (n : ℕ), (c.distributeM n).2 = c) ∧
    (∀ c : Currency, (c.dollarsM).2 = c) ∧
    (∀ c : Currency, (c.centsM).2 = c) ∧
    (∀ (c : Currency) (u : Option Bool), (c.formatM u).2 = c) ∧
    (∀ c : Currency, (c.toStringM).2 = c) ∧
    (∀ c : Currency, (c.toJSONM).2 = c) ∧
    (∀ (c r : Currency) (x : JSVal), (c.addM x).1 = .ok r →
      ∃ n, mkCurrency (.num n) c.settings.toOpts = .ok r) ∧
    (∀ (c r : Currency) (x : JSVal), (c.subtractM x).1 = .ok r →
      ∃ n, mkCurrency (.num n) c.settings.toOpts = .ok r) ∧
    (∀ (c r : Currency) (n : JSNum), (c.multiplyM n).1 = .ok r →
      ∃ m, mkCurrency (.num m) c.settings.toOpts = .ok r) ∧
    (∀ (c r : Currency) (x : JSVal), (c.divideM x).1 = .ok r →
      ∃ n, mkCurrency (.num n) c.settings.toOpts = .ok r) := by
  refine ⟨fun _ _ => rfl, fun _ _ => rfl, fun _ _ => rfl, fun _ _ => rfl, fun _ _ => rfl,
    fun _ => rfl, fun _ => rfl, fun _ _ => rfl, fun _ => rfl, fun _ => rfl, ?_, ?_, ?_, ?_⟩
  · intro c r x h
    have h' : c.add x = .ok r := h
    unfold Currency.add at h'
    cases hp : parse x c.settings with
    | error e => rw [hp] at h'; exact absurd h' (by simp [Bind.bind, Except.bind])
    | ok p => rw [hp, ok_bind] at h'; exact ⟨_, h'⟩
  · intro c r x h
    have h' : c.subtract x = .ok r := h
    unfold Currency.subtract at h'
    cases hp : parse x c.settings with
    | error e => rw [hp] at h'; exact absurd h' (by simp [Bind.bind, Except.bind])
    | ok p => rw [hp, ok_bind] at h'; exact ⟨_, h'⟩
  · intro c r n h
    exact ⟨_, h⟩
  · intro c r x h
    have h' : c.divide x = .ok r := h
    unfold Currency.divide at h'
    cases hp : parse x c.settings false with
    | error e => rw [hp] at h'; exact absurd h' (by simp [Bind.bind, Except.bind])
    | ok p => rw [hp, ok_bind] at h'; exact ⟨_, h'⟩

/-! ### Configuration propagation -/

lemma except_map_ok {α β : Type} (f : α → β) (x : Except String α) (b : β)
    (h : x.map f = .ok b) : ∃ a, x = .ok a ∧ b = f a := by
  cases x with
  | error e => simp [Except.map] at h
  | ok a =>
    simp only [Except.map, Except.ok.injEq] at h
    exact ⟨a, rfl, h.symm⟩

lemma mkCurrency_settings (v : JSVal) (o : Opts) (r : Currency)
    (h : mkCurrency v o = .ok r) : r.settings = buildSettings o := by
  simp only [mkCurrency] at h
  obtain ⟨a, -, hb⟩ := except_map_ok _ _ _ h
  rw [hb]

lemma mkCurrency_num_shape (n : JSNum) (o : Opts) :
    ∃ r, mkCurrency (.num n) o = .ok r ∧ r.settings = buildSettings o ∧
      r.precisionF = 10 ^ (buildSettings o).precision :=
  ⟨_, rfl, rfl, rfl⟩

lemma add_num_shape (c : Currency) (n : JSNum) :
    ∃ r, c.add (.num n) = .ok r ∧ r.settings = buildSettings c.settings.toOpts :=
  ⟨_, rfl, rfl⟩

lemma subtract_num_shape (c : Currency) (n : JSNum) :
    ∃ r, c.subtract (.num n) = .ok r ∧ r.settings = buildSettings c.settings.toOpts :=
  ⟨_, rfl, rfl⟩

lemma Currency.add_settings (c : Currency) (x : JSVal) (r : Currency)
    (h : c.add x = .ok r) : r.settings = buildSettings c.settings.toOpts := by
  unfold Currency.add at h
  cases hp : parse x c.settings with
  | error e => rw [hp] at h; exact absurd h (by simp [Bind.bind, Except.bind])
  | ok p =>
    rw [hp, ok_bind] at h
    exact mkCurrency_settings _ _ _ h

lemma Currency.subtract_settings (c : Currency) (x : JSVal) (r : Currency)
    (h : c.subtract x = .ok r) : r.settings = buildSettings c.settings.toOpts := by
  unfold Currency.subtract at h
  cases hp : parse x c.settings with
  | error e => rw [hp] at h; exact absurd h (by simp [Bind.bind, Except.bind])
  | ok p =>
    rw [hp, ok_bind] at h
    exact mkCurrency_settings _ _ _ h

lemma Currency.divide_settings (c : Currency) (x : JSVal) (r : Currency)
    (h : c.divide x = .ok r) : r.settings = buildSettings c.settings.toOpts := by
  unfold Currency.divide at h
  cases hp : parse x c.settings false with
  | error e => rw [hp] at h; exact absurd h (by simp [Bind.bind, Except.bind])
  | ok p =>
    rw [hp, ok_bind] at h
    exact mkCurrency_settings _ _ _ h

lemma distributeLoop_settings (c : Currency) (split : JSNum) :
    ∀ (k : ℕ) (pennies : JSNum) (l : List Currency),
      distributeLoop c split k pennies = .ok l →
      ∀ x ∈ l, x.settings = buildSettings c.settings.toOpts := by
  intro k
  induction k with
  | zero =>
    intro pennies l h x hx
    cases h
    simp at hx
  | succ k ih =>
    intro pennies l h x hx
    obtain ⟨item0, h0, hs0, -⟩ := mkCurrency_num_shape (jsDiv split (some c.precisionF))
      c.settings.toOpts
    simp only [distributeLoop, h0, ok_bind] at h
    have hstep : ∀ (item1 : Currency),
        item1.settings = buildSettings c.settings.toOpts →
        ((distributeLoop c split k (jsSub pennies (some 1))) >>=
          (fun rest => pure (item1 :: rest))) = .ok l →
        x.settings = buildSettings c.settings.toOpts := by
      intro item1 hs1 hh
      cases hr : distributeLoop c split k (jsSub pennies (some 1)) with
      | error e => rw [hr] at hh; exact absurd hh (by simp [Bind.bind, Except.bind])
      | ok rest =>
        rw [hr, ok_bind, pure_ok] at hh
        cases hh
        rcases List.mem_cons.mp hx with rfl | hxr
        · exact hs1
        · exact ih (jsSub pennies (some 1)) rest hr x hxr
    by_cases hgt : jgt0 pennies = true
    · by_cases hge : jge0 c.intValue = true
      · simp only [hgt, hge, if_true] at h
        obtain ⟨item1, h1, hs1⟩ := add_num_shape item0 (jsDiv (some 1) (some c.precisionF))
        rw [h1, ok_bind] at h
        exact hstep item1 (by rw [hs1, hs0, buildSettings_idem]) h
      · simp only [hgt, hge, if_true, Bool.false_eq_true, if_false] at h
        obtain ⟨item1, h1, hs1⟩ := subtract_num_shape item0 (jsDiv (some 1) (some c.precisionF))
        rw [h1, ok_bind] at h
        exact hstep item1 (by rw [hs1, hs0, buildSettings_idem]) h
    · simp only [hgt, Bool.false_eq_true, if_false, pure_ok, ok_bind] at h
      exact hstep item0 hs0 h

lemma Currency.distribute_settings (c : Currency) (count : ℕ) (l : List Currency)
    (h : c.distribute count = .ok l) :
    ∀ x ∈ l, x.settings = buildSettings c.settings.toOpts := by
  simp only [Currency.distribute] at h
  exact distributeLoop_settings c _ count _ l h

/-- C5: configuration is established once at construction (the
constructor always emits a normalized settings object), and every value
produced by `add`, `subtract`, `multiply`, `divide` or `distribute`
carries a settings object field-for-field equal to the originating
instance's — no operation changes any configuration field mid-chain. -/
theorem config_propagates_unchanged :
    (∀ (v : JSVal) (o : Opts) (r : Currency), mkCurrency v o = .ok r → r.settings.Normal) ∧
    (∀ c : Currency, c.settings.Normal →
      (∀ (x : JSVal) (r : Currency), c.add x = .ok r → r.settings = c.settings) ∧
      (∀ (x : JSVal) (r : Currency), c.subtract x = .ok r → r.settings = c.settings) ∧
      (∀ (n : JSNum) (r : Currency), c.multiply n = .ok r → r.settings = c.settings) ∧
      (∀ (x : JSVal) (r : Currency), c.divide x = .ok r → r.settings = c.settings) ∧
      (∀ (n : ℕ) (l : List Currency), c.distribute n = .ok l →
        ∀ x ∈ l, x.settings = c.settings)) := by
  constructor
  · intro v o r h
    rw [mkCurrency_settings v o r h]
    exact buildSettings_normal o
  · intro c hn
    have he : buildSettings c.settings.toOpts = c.settings := buildSettings_toOpts_eq _ hn
    refine ⟨?_, ?_, ?_, ?_, ?_⟩
    · intro x r h
      rw [Currency.add_settings c x r h, he]
    · intro x r h
      rw [Currency.subtract_settings c x r h, he]
    · intro n r h
      rw [mkCurrency_settings _ _ _ h, he]
    · intro x r h
      rw [Currency.divide_settings c x r h, he]
    · intro n l h x hx
      rw [Currency.distribute_settings c n l h x hx, he]

/-! ### Witnesses: the theorems above applied at concrete instances -/

theorem distribute_conserves_total_witness :
    (sampleCurrency.intValue = some ((127 : ℤ) : ℚ) ∧
      sampleCurrency.precisionF = 10 ^ sampleCurrency.settings.precision ∧ 1 ≤ 3) ∧
    ∃ l, sampleCurrency.distribute 3 = .ok l ∧ l.length = 3 ∧
      jsum (l.map Currency.intValue) = some ((127 : ℤ) : ℚ) :=
  ⟨⟨by decide, by decide, by decide⟩,
   distribute_conserves_total sampleCurrency 127 3 (by decide) (by decide) (by decide)⟩

theorem distribute_share_shape_witness :
    (sampleNegCurrency.intValue = some ((-150 : ℤ) : ℚ) ∧
      sampleNegCurrency.precisionF = 10 ^ sampleNegCurrency.settings.precision ∧ 1 ≤ 4) ∧
    ∃ l, sampleNegCurrency.distribute 4 = .ok l ∧
      l.map Currency.intValue =
        List.replicate (penniesOf (-150) 4)
          (some (((if 0 ≤ (-150 : ℤ) then splitOf (-150) 4 + 1 else splitOf (-150) 4 - 1) :
            ℤ) : ℚ)) ++
        List.replicate (4 - penniesOf (-150) 4) (some ((splitOf (-150) 4 : ℤ) : ℚ)) :=
  ⟨⟨by decide, by decide, by decide⟩,
   distribute_share_shape sampleNegCurrency (-150) 4 (by decide) (by decide) (by decide)⟩

theorem operations_preserve_receiver_witness :
    (sampleCurrency.addM (.num (some 1))).2 = sampleCurrency ∧
    (sampleCurrency.addM (.num (some 1))).1 = .ok sampleAddResult ∧
    (∃ n, mkCurrency (.num n) sampleCurrency.settings.toOpts = .ok sampleAddResult) :=
  ⟨operations_preserve_receiver.1 sampleCurrency (.num (some 1)), by decide,
   operations_preserve_receiver.2.2.2.2.2.2.2.2.2.2.1 sampleCurrency sampleAddResult
     (.num (some 1)) (by decide)⟩

theorem config_propagates_unchanged_witness :
    sampleCurrency.settings.Normal ∧
    sampleCurrency.add (.num (some 1)) = .ok sampleAddResult ∧
    sampleAddResult.settings = sampleCurrency.settings :=
  ⟨config_propagates_unchanged.1 (.num (some (127 / 100))) {} sampleCurrency (by decide),
   by decide,
   (config_propagates_unchanged.2 sampleCurrency (by decide)).1 (.num (some 1))
     sampleAddResult (by decide)⟩

theorem parse_toString_roundtrip_witness :
    (([(5 : Fin 10)] : List (Fin 10)).length ≤ 2 ∧
      (true = false → ([(5 : Fin 10)] : List (Fin 10)) = []) ∧
      ([(1 : Fin 10), 9] ++ [(5 : Fin 10)] : List (Fin 10)) ≠ []) ∧
    (mkCurrency (.str (decimalStringOf true [1, 9] [5] true)) {}).map Currency.toString =
      .ok (normalizedRendering true [1, 9] [5]) :=
  ⟨⟨by decide, by decide, by decide⟩,
   parse_toString_roundtrip true [1, 9] [5] true (by decide) (by decide) (by decide)⟩

theorem dollars_cents_signed_semantics_witness :
    (sampleNegCurrency.value = some (-3 / 2 : ℚ) ∧
      sampleNegCurrency.dollars = ((ratTrunc (-3 / 2 : ℚ) : ℤ) : ℚ)) ∧
    (sampleNegCurrency.intValue = some ((-150 : ℤ) : ℚ) ∧ sampleNegCurrency.precisionF = 100 ∧
      sampleNegCurrency.cents = (((-150 : ℤ).tmod 100 : ℤ) : ℚ)) :=
  ⟨⟨by decide,
    dollars_cents_signed_semantics.1 sampleNegCurrency (-3 / 2) (by decide) (by decide)
      (by decide)⟩,
   ⟨by decide, by decide,
    dollars_cents_signed_semantics.2.1 sampleNegCurrency (-150) (by decide) (by decide)⟩⟩

theorem construct_from_instance_witness :
    ((({} : Opts).errorOnInvalid.getD false = false) ∧
      ∃ c, mkCurrency (.inst sampleCurrency) {} = .ok c ∧ c.intValue = some 0) ∧
    ((({ errorOnInvalid := some true } : Opts).errorOnInvalid.getD false = true) ∧
      mkCurrency (.inst sampleCurrency) { errorOnInvalid := some true } =
        .error "Invalid Input") :=
  ⟨⟨by decide, (construct_from_instance sampleCurrency {}).1 (by decide)⟩,
   ⟨by decide, (construct_from_instance sampleCurrency { errorOnInvalid := some true }).2
     (by decide)⟩⟩
